import Mathlib

/-!
Verification of the PR review-agent orchestration of this repository.

The repository ships one live CI script, `.github/scripts/review-agent.mjs`
(called `ReviewAgent` below), plus two earlier revisions of the same script
kept in the repository (called `ScriptA` and `ScriptB` below, in the order
they appear in the unnamed source file).  JavaScript strings are embedded as
`List Char`; the regex-driven string transformations of the scripts are
embedded as executable fuel-indexed recursions whose fuel strictly exceeds
the input length, so they compute by kernel reduction.
-/

/-- The character set of the JavaScript `\s` class and of `String.prototype.trim`,
restricted to its ASCII part (all inputs handled by the scripts and by the
theorems below are ASCII, apart from the explicitly embedded annotation bytes,
which are not whitespace). -/
def jsWsB (c : Char) : Bool :=
  c == ' ' || c == '\t' || c == '\n' || c == '\r' || c == Char.ofNat 11 || c == Char.ofNat 12

/-- The backtick character, U+0060. -/
def btick : Char := Char.ofNat 96

/-- A code fence delimiter: three backticks. -/
def ticks : List Char := [btick, btick, btick]

/-- JavaScript `String.prototype.startsWith` on character lists. -/
def startsWithL : List Char → List Char → Bool
  | _, [] => true
  | [], _ :: _ => false
  | a :: as, b :: bs => a == b && startsWithL as bs

/-- JavaScript `String.prototype.includes` on character lists:
`jsIncludes s sub` is true iff `sub` occurs contiguously in `s`. -/
def jsIncludes : List Char → List Char → Bool
  | [], sub => sub.isEmpty
  | c :: rest, sub => startsWithL (c :: rest) sub || jsIncludes rest sub

/-- JavaScript `String.prototype.trim` (ASCII whitespace, see `jsWsB`). -/
def trimList (l : List Char) : List Char :=
  ((l.dropWhile jsWsB).reverse.dropWhile jsWsB).reverse

/-- JavaScript `Array.prototype.join('\n')`. -/
def joinNl : List (List Char) → List Char
  | [] => []
  | [x] => x
  | x :: y :: xs => x ++ '\n' :: joinNl (y :: xs)

/-- JavaScript `String.prototype.split('\n')`. -/
def splitNl : List Char → List (List Char)
  | [] => [[]]
  | c :: rest =>
    if c == '\n' then [] :: splitNl rest
    else
      match splitNl rest with
      | [] => [[c]]
      | seg :: segs => (c :: seg) :: segs

/-- JavaScript `String.prototype.toLowerCase` on ASCII characters. -/
def lowerL (l : List Char) : List Char := l.map Char.toLower

/-- The character class actually denoted by the live script's regex source
`[\\s\\S]`: inside a regex literal `\\` matches a literal backslash, so the
class holds exactly the backslash, `s` and `S` — not "any character". -/
def allowedBuggy (c : Char) : Bool := c == '\\' || c == 's' || c == 'S'

/-- Lazy search for the closing fence of `/```[\\s\\S]*?```/` (live script):
given the characters after the opening ```, repeatedly first try to close,
else consume one character of the (buggy) class, else fail.  Returns the
characters after the closing fence on success. -/
def fenceCloseB : List Char → Option (List Char)
  | [] => none
  | c :: rest =>
    if startsWithL (c :: rest) ticks then some ((c :: rest).drop 3)
    else if allowedBuggy c then fenceCloseB rest
    else none

/-- Lazy search for the closing fence of `/```[\s\S]*?```/` (earlier script
revision, where the class really is "any character"). -/
def fenceCloseA : List Char → Option (List Char)
  | [] => none
  | c :: rest =>
    if startsWithL (c :: rest) ticks then some ((c :: rest).drop 3)
    else fenceCloseA rest

/-- One global-replace pass of a fence regex by a single space, JavaScript
`String.prototype.replace` with the `g` flag: scan left to right, at each
position try to match (parameterised by the close-scanner), on a match emit
`' '` and continue after the match, otherwise emit the character and advance.
The fuel only enforces termination; it strictly exceeds the scanned length at
every call from the wrappers below. -/
def stripFencesF (close : List Char → Option (List Char)) : Nat → List Char → List Char
  | 0, s => s
  | _ + 1, [] => []
  | fuel + 1, c :: rest =>
    if startsWithL (c :: rest) ticks then
      match close ((c :: rest).drop 3) with
      | some r => ' ' :: stripFencesF close fuel r
      | none => c :: stripFencesF close fuel rest
    else c :: stripFencesF close fuel rest

/-- `body.replace(/```[\\s\\S]*?```/g, ' ')` — the live script's (buggy) fence
stripping. -/
def stripFences (s : List Char) : List Char := stripFencesF fenceCloseB (s.length + 1) s

/-- `body.replace(/```[\s\S]*?```/g, ' ')` — the earlier revision's fence
stripping, whose class matches any character. -/
def stripFencesAny (s : List Char) : List Char := stripFencesF fenceCloseA (s.length + 1) s

/-- One global-replace pass of the live script's regex source `/\\s+/g` by a
single space: it matches a literal backslash followed by a maximal nonempty
run of `s` characters (it does NOT collapse whitespace). -/
def collapseBSF : Nat → List Char → List Char
  | 0, s => s
  | _ + 1, [] => []
  | fuel + 1, c :: rest =>
    if c == '\\' && rest.head? == some 's' then
      ' ' :: collapseBSF fuel (rest.dropWhile (fun d => d == 's'))
    else c :: collapseBSF fuel rest

/-- `cleaned.replace(/\\s+/g, ' ')` of the live script. -/
def collapseBS (s : List Char) : List Char := collapseBSF (s.length + 1) s

/-- One global-replace pass of `/\s+/g` by a single space (earlier revision):
a maximal nonempty whitespace run becomes one space. -/
def collapseWsF : Nat → List Char → List Char
  | 0, s => s
  | _ + 1, [] => []
  | fuel + 1, c :: rest =>
    if jsWsB c then ' ' :: collapseWsF fuel (rest.dropWhile jsWsB)
    else c :: collapseWsF fuel rest

/-- `cleaned.replace(/\s+/g, ' ')` of the earlier revision. -/
def collapseWs (s : List Char) : List Char := collapseWsF (s.length + 1) s

namespace ReviewAgent

/-- `const TRIGGER = '@review-agent: please review this PR';` -/
def triggerChars : List Char := "@review-agent: please review this PR".data

/-- `const MARKER_PREFIX = '<!-- review-agent commit:';` -/
def markerStart : List Char := "<!-- review-agent commit:".data

/-- `matchesTrigger` of `.github/scripts/review-agent.mjs` (lines 279-284),
embedded with the regexes' actual (double-backslash) semantics:

    if (!body) return false;
    const cleaned = body.replace(/```[\\s\\S]*?```/g, ' ');
    const normalized = cleaned.replace(/\\s+/g, ' ').trim().toLowerCase();
    return normalized.includes(TRIGGER.toLowerCase());
-/
def matchesTrigger (body : List Char) : Bool :=
  if body.isEmpty then false
  else jsIncludes (lowerL (trimList (collapseBS (stripFences body)))) (lowerL triggerChars)

end ReviewAgent

namespace ScriptA

/-- `matchesTrigger` of the first earlier revision (part_000 lines 137-141),
whose regexes are written with single backslashes and therefore really strip
fenced code blocks and collapse whitespace. -/
def matchesTrigger (body : List Char) : Bool :=
  if body.isEmpty then false
  else jsIncludes (lowerL (trimList (collapseWs (stripFencesAny body)))) (lowerL ReviewAgent.triggerChars)

/-- `const MAX_FILE_CHARS = 4000;` -/
def maxFileChars : Nat := 4000

/-- The truncation annotation of the first revision's `truncate`
(part_000 line 163): the template is `\n<U+00E2><U+20AC><U+00A6> [truncated N chars]`
— the three middle characters are the file's literal (mojibake) bytes. -/
def truncNote (k : Nat) : List Char :=
  '\n' :: Char.ofNat 226 :: Char.ofNat 8364 :: Char.ofNat 166 ::
    (" [truncated ".data ++ (Nat.repr k).data ++ " chars]".data)

/-- `truncate` of the first earlier revision (part_000 lines 160-164):

    if (!value) return '';
    if (value.length <= maxChars) return value;
    return `${value.slice(0, maxChars)}\n… [truncated ${value.length - maxChars} chars]`;
-/
def truncate (value : List Char) (maxChars : Nat) : List Char :=
  if value.isEmpty then []
  else if value.length ≤ maxChars then value
  else value.take maxChars ++ truncNote (value.length - maxChars)

end ScriptA

namespace ScriptB

/-- `const MAX_TEST_CHARS = 8000;` of the second earlier revision. -/
def maxTestChars : Nat := 8000

/-- `truncate` of the second earlier revision (part_000 lines 410-414); its
annotation does not state the omitted count. -/
def truncate (text : List Char) (maxChars : Nat) : List Char :=
  if text.isEmpty then []
  else if text.length ≤ maxChars then text
  else text.take maxChars ++ "\n...truncated...".data

/-- The idempotency scan of the second earlier revision (part_000 lines
284-286): `existingReviews.data.some((review) => review.body?.includes(marker))`. -/
def alreadyReviewed (bodies : List (Option (List Char))) (marker : List Char) : Bool :=
  bodies.any fun b =>
    match b with
    | none => false
    | some s => jsIncludes s marker

end ScriptB

namespace ReviewAgent

/-- The outcome of one `execFileAsync` invocation: its exit status and (for
`runCapture`) its concatenated `stdout + stderr`. -/
structure CmdResult where
  ok : Bool
  out : List Char
  deriving DecidableEq

/-- `fs.stat` result: whether the path is a regular file. -/
structure Stat where
  isFile : Bool
  deriving DecidableEq

/-- The filesystem of the checked-out working directory as seen by
`readFiles`: `stat` and `read` return `none` where the corresponding
`fs.stat` / `fs.readFile` call would throw. -/
structure Fsys where
  stat : List Char → Option Stat
  read : List Char → Option (List Char)

/-- One element of a structured completion-response `content` array. -/
structure ContentPart where
  typ : List Char
  text : Option (List Char)

/-- One element of a structured completion-response `output` array; a JS
`null`/absent `content` is embedded as the empty list, matching
`item.content || []`. -/
structure OutputItem where
  content : List ContentPart

/-- A completion-API response: either a flat `output_text` string (absent or
empty embeds as `none` / `some []`) or a structured `output` list. -/
structure Response where
  outputText : Option (List Char)
  output : List OutputItem

/-- JavaScript truthiness of an optional string: present and nonempty. -/
def truthyS : Option (List Char) → Bool
  | some s => !s.isEmpty
  | none => false

/-- `extractReviewText` of review-agent.mjs (lines 264-277): prefer a truthy
flat `output_text`; otherwise join the `output_text`-typed content chunks
with newlines and trim; fall back to the fixed default when that is empty. -/
def extractReviewText (r : Response) : List Char :=
  if truthyS r.outputText then r.outputText.getD []
  else
    let chunks := (r.output.map fun item =>
      item.content.filterMap fun c =>
        if c.typ == "output_text".data && truthyS c.text then c.text else none).flatten
    let text := trimList (joinNl chunks)
    if text.isEmpty then "No issues found. Tests passed.".data else text

/-- A parsed `package.json` as the script consumes it: the `scripts.test`
entry and the three dependency maps (association lists). -/
structure Pkg where
  scriptsTest : Option (List Char)
  dependencies : List (List Char × List Char)
  devDependencies : List (List Char × List Char)
  optionalDependencies : List (List Char × List Char)

/-- Key lookup in one dependency object. -/
def lookupDep (l : List (List Char × List Char)) (k : List Char) : Option (List Char) :=
  match l.find? (fun kv => kv.1 == k) with
  | some kv => some kv.2
  | none => none

/-- The spread-merge `{...pkg?.dependencies, ...pkg?.devDependencies,
...pkg?.optionalDependencies}`: a later spread overrides an earlier one, so
lookup prefers `optionalDependencies`, then `devDependencies`, then
`dependencies`. -/
def mergedDeps (p : Pkg) (k : List Char) : Option (List Char) :=
  lookupDep p.optionalDependencies k <|> lookupDep p.devDependencies k <|>
    lookupDep p.dependencies k

/-- `usesPlaywright` of review-agent.mjs (lines 304-311): the merged
dependency map has a truthy `@playwright/test` or `playwright` entry (the
merged object literal itself is always truthy). -/
def usesPlaywright (p : Pkg) : Bool :=
  truthyS (mergedDeps p "@playwright/test".data) || truthyS (mergedDeps p "playwright".data)

/-- `!testScript || /no test specified/i.test(testScript)` (lines 99-100). -/
def noValidTestScript (p : Pkg) : Bool :=
  match p.scriptsTest with
  | none => true
  | some s => s.isEmpty || jsIncludes (lowerL s) "no test specified".data

/-- The external commands the script can spawn, in source order. `rm`/`mkdir`
of the scratch directory are local fs calls, not spawned commands, and are
not traced. -/
inductive Cmd
  | gitInit
  | gitRemote
  | gitFetch
  | gitCheckout
  | gitDiff
  | gitDiffNames
  | npmCi
  | playwrightInstall
  | npmTest
  deriving DecidableEq

/-- Where one invocation of the script terminates. -/
inductive Outcome
  | missingToken
  | missingEventPath
  | missingContext
  | noTrigger
  | prNotFound
  | forkRejected
  | gitFailed
  | noPkg
  | noTestScript
  | jsErrorInCatch
  | missingOpenAiKey
  | posted
  deriving DecidableEq

/-- The process exit status of each outcome: only "trigger absent" and a
posted review exit 0. An uncaught error (failed git command, or the
`ReferenceError` raised inside the test-failure catch block) makes the node
process exit nonzero. -/
def Outcome.exitCode : Outcome → Nat
  | .noTrigger => 0
  | .posted => 0
  | _ => 1

/-- The externally observable effects of one invocation, in order: spawned
commands, issue comments posted via `postComment`, review bodies posted via
`pulls.createReview`, the number of completion-API calls, and where the
run ended. -/
structure Trace where
  commands : List Cmd
  comments : List (List Char)
  reviews : List (List Char)
  completions : Nat
  outcome : Outcome
  deriving DecidableEq

/-- The environment of one invocation: credentials and event payload,
the PR snapshot returned by the host API, the review bodies currently on the
PR (the live script never reads them), the results each external command
would produce, the filesystem of the checkout, the parse of
`package.json` (`none` when reading or parsing would throw), and the two
completion responses. -/
structure Env where
  githubToken : Option (List Char)
  openaiKey : Option (List Char)
  eventPath : Option (List Char)
  commentBody : List Char
  issueNumber : Option Nat
  ownerLogin : Option (List Char)
  repoName : Option (List Char)
  prFound : Bool
  headRepoFullName : List Char
  baseRepoFullName : List Char
  headSha : List Char
  baseSha : List Char
  prTitle : List Char
  prBody : Option (List Char)
  existingReviewBodies : List (Option (List Char))
  gitInit : CmdResult
  gitRemote : CmdResult
  gitFetch : CmdResult
  gitCheckout : CmdResult
  gitDiff : CmdResult
  gitDiffNames : CmdResult
  fsys : Fsys
  pkgJson : Option Pkg
  npmCi : CmdResult
  pwInstall : CmdResult
  npmTest : CmdResult
  firstResponse : Response
  retryResponse : Response

/-- `'Review agent only runs on PRs from the same repository (forks are not supported).'` -/
def msgFork : List Char :=
  "Review agent only runs on PRs from the same repository (forks are not supported).".data

/-- `'package.json not found. Cannot run npm test.'` -/
def msgNoPkg : List Char := "package.json not found. Cannot run npm test.".data

/-- `'No valid npm test script found. Please define a real "test" script in package.json.'` -/
def msgNoTestScript : List Char :=
  "No valid npm test script found. Please define a real \"test\" script in package.json.".data

/-- `'OPENAI_API_KEY is not configured. Cannot generate review.'` -/
def msgNoKey : List Char := "OPENAI_API_KEY is not configured. Cannot generate review.".data

/-- The idempotency marker `` `${MARKER_PREFIX}${headSha} -->` `` (line 64). -/
def markerFor (headSha : List Char) : List Char := markerStart ++ headSha ++ " -->".data

/-- `` `${reviewText}\n\n${marker}` `` (line 180). -/
def reviewBody (text headSha : List Char) : List Char :=
  text ++ '\n' :: '\n' :: markerFor headSha

/-- `.split('\n').map((f) => f.trim()).filter(Boolean)` over the
`git diff --name-only` output (line 81). -/
def changedNames (out : List Char) : List (List Char) :=
  ((splitNl out).map trimList).filter fun s => !s.isEmpty

/-- `` `\n--- ${file} ---\n${content}` `` pushed by `readFiles` (line 295):
the live script pushes the file content in full, with no truncation. -/
def fileSection (f content : List Char) : List Char :=
  '\n' :: ("--- ".data ++ f ++ " ---\n".data ++ content)

/-- The `for` loop of `readFiles` (lines 286-301) accumulating `parts`:
an empty name, a throwing `stat`, a non-regular file, or a throwing
`readFile` is skipped silently (`continue`), otherwise the full-content
section is appended. -/
def readFilesLoop (fs : Fsys) : List (List Char) → List (List Char) → List (List Char)
  | parts, [] => parts
  | parts, f :: rest =>
    if f.isEmpty then readFilesLoop fs parts rest
    else
      match fs.stat f with
      | none => readFilesLoop fs parts rest
      | some st =>
        if !st.isFile then readFilesLoop fs parts rest
        else
          match fs.read f with
          | none => readFilesLoop fs parts rest
          | some content => readFilesLoop fs (parts ++ [fileSection f content]) rest

/-- `readFiles` of review-agent.mjs (lines 286-301): `parts.join('\n').trim()`. -/
def readFiles (files : List (List Char)) (fs : Fsys) : List Char :=
  trimList (joinNl (readFilesLoop fs [] files))

/-- `/no issues found/i.test(reviewText)` (line 159). -/
def hasNoIssues (s : List Char) : Bool := jsIncludes (lowerL s) "no issues found".data

/-- Lines 152-181: call the completion API on the primary prompt; if the
extracted text matches `/no issues found/i`, call it once more on the retry
prompt and keep the retry's extraction; post the review with the marker
appended.  (The prompt texts themselves have no bearing on any claim and are
not traced; only the number of completion calls and the posted body are.) -/
def reviewPhase (e : Env) (cmds : List Cmd) : Trace :=
  match e.openaiKey with
  | none => ⟨cmds, [msgNoKey], [], 0, .missingOpenAiKey⟩
  | some _ =>
    let t1 := extractReviewText e.firstResponse
    if hasNoIssues t1 then
      ⟨cmds, [], [reviewBody (extractReviewText e.retryResponse) e.headSha], 2, .posted⟩
    else
      ⟨cmds, [], [reviewBody t1 e.headSha], 1, .posted⟩

/-- Lines 110-130: `npm ci`, then `npx playwright install` when
`usesPlaywright(pkg)`, then `npm test`, inside one `try`.  A failing command
raises, and the `catch` block immediately evaluates the identifiers
`truncate` and `MAX_TEST_CHARS`, neither of which is defined anywhere in
review-agent.mjs — a `ReferenceError` that escapes the catch block, so no
comment is posted and the process dies (`Outcome.jsErrorInCatch`). -/
def testPhase (e : Env) (p : Pkg) (cmds : List Cmd) : Trace :=
  if !e.npmCi.ok then ⟨cmds ++ [.npmCi], [], [], 0, .jsErrorInCatch⟩
  else if usesPlaywright p then
    if !e.pwInstall.ok then ⟨cmds ++ [.npmCi, .playwrightInstall], [], [], 0, .jsErrorInCatch⟩
    else if !e.npmTest.ok then
      ⟨cmds ++ [.npmCi, .playwrightInstall, .npmTest], [], [], 0, .jsErrorInCatch⟩
    else reviewPhase e (cmds ++ [.npmCi, .playwrightInstall, .npmTest])
  else if !e.npmTest.ok then ⟨cmds ++ [.npmCi, .npmTest], [], [], 0, .jsErrorInCatch⟩
  else reviewPhase e (cmds ++ [.npmCi, .npmTest])

/-- Lines 85-108: parse `package.json` (any read/parse error posts
`msgNoPkg` and exits 1), then validate the test script (an absent or
placeholder script posts `msgNoTestScript` and exits 1). -/
def pkgPhase (e : Env) (cmds : List Cmd) : Trace :=
  match e.pkgJson with
  | none => ⟨cmds, [msgNoPkg], [], 0, .noPkg⟩
  | some p =>
    if noValidTestScript p then ⟨cmds, [msgNoTestScript], [], 0, .noTestScript⟩
    else testPhase e p cmds

/-- Lines 66-83: the four `run` git commands (an error is uncaught and
fatal), then the two `runCapture` diff commands (review-agent.mjs's
`runCapture` rethrows on failure, so these are fatal too), then `readFiles`
over the trimmed, non-blank changed names. -/
def gitPhase (e : Env) : Trace :=
  if !e.gitInit.ok then ⟨[.gitInit], [], [], 0, .gitFailed⟩
  else if !e.gitRemote.ok then ⟨[.gitInit, .gitRemote], [], [], 0, .gitFailed⟩
  else if !e.gitFetch.ok then ⟨[.gitInit, .gitRemote, .gitFetch], [], [], 0, .gitFailed⟩
  else if !e.gitCheckout.ok then
    ⟨[.gitInit, .gitRemote, .gitFetch, .gitCheckout], [], [], 0, .gitFailed⟩
  else if !e.gitDiff.ok then
    ⟨[.gitInit, .gitRemote, .gitFetch, .gitCheckout, .gitDiff], [], [], 0, .gitFailed⟩
  else if !e.gitDiffNames.ok then
    ⟨[.gitInit, .gitRemote, .gitFetch, .gitCheckout, .gitDiff, .gitDiffNames], [], [], 0,
      .gitFailed⟩
  else
    let _contents := readFiles (changedNames e.gitDiffNames.out) e.fsys
    pkgPhase e [.gitInit, .gitRemote, .gitFetch, .gitCheckout, .gitDiff, .gitDiffNames]

/-- The whole of `.github/scripts/review-agent.mjs` as one function from the
environment to its observable trace, following the source top to bottom:
credential and event-context guards (lines 16-38), the trigger gate (line
40), the PR fetch (lines 45-50), the fork policy check (lines 52-60), then
the git, package and test phases, and the review generation.  Note the live
script computes the marker (line 64) but never lists existing reviews — there
is no idempotency check between the fork check and the checkout. -/
def runReviewAgent (e : Env) : Trace :=
  match e.githubToken with
  | none => ⟨[], [], [], 0, .missingToken⟩
  | some _ =>
    match e.eventPath with
    | none => ⟨[], [], [], 0, .missingEventPath⟩
    | some _ =>
      if e.issueNumber.isNone || e.ownerLogin.isNone || e.repoName.isNone then
        ⟨[], [], [], 0, .missingContext⟩
      else if !matchesTrigger e.commentBody then ⟨[], [], [], 0, .noTrigger⟩
      else if !e.prFound then ⟨[], [], [], 0, .prNotFound⟩
      else if e.headRepoFullName ≠ e.baseRepoFullName then
        ⟨[], [msgFork], [], 0, .forkRejected⟩
      else gitPhase e

end ReviewAgent

open ReviewAgent

/-- A successful external command with empty captured output. -/
def okCmd : CmdResult := ⟨true, []⟩

/-- A failing external command with some captured output. -/
def badCmd : CmdResult := ⟨false, "npm ERR! tests failed".data⟩

/-- A working directory with no readable files. -/
def emptyFs : Fsys := ⟨fun _ => none, fun _ => none⟩

/-- A completion response carrying its text in the flat shape. -/
def respText (s : String) : Response := ⟨some s.data, []⟩

/-- A `package.json` with a real test script and no playwright dependency. -/
def pkgPlain : Pkg := ⟨some "vitest run".data, [], [], []⟩

/-- A `package.json` with a real test script and `@playwright/test` in
`devDependencies`. -/
def pkgPw : Pkg :=
  ⟨some "playwright test".data, [("react".data, "^18.0.0".data)],
    [("@playwright/test".data, "^1.47.0".data)], []⟩

/-- The six git commands of a successful checkout-and-diff phase, in order. -/
def gitCmds : List Cmd :=
  [.gitInit, .gitRemote, .gitFetch, .gitCheckout, .gitDiff, .gitDiffNames]

/-- A fully healthy same-repo invocation: trigger present, PR found, all
commands succeed, `package.json` parses with a real test script, completion
available. -/
def baseEnv : Env where
  githubToken := some "ghtoken".data
  openaiKey := some "sk-key".data
  eventPath := some "/github/workflow/event.json".data
  commentBody := "@review-agent: please review this PR".data
  issueNumber := some 7
  ownerLogin := some "marcbey".data
  repoName := some "playwright-test".data
  prFound := true
  headRepoFullName := "marcbey/playwright-test".data
  baseRepoFullName := "marcbey/playwright-test".data
  headSha := "abc123".data
  baseSha := "def456".data
  prTitle := "Add login form".data
  prBody := none
  existingReviewBodies := []
  gitInit := okCmd
  gitRemote := okCmd
  gitFetch := okCmd
  gitCheckout := okCmd
  gitDiff := ⟨true, "diff --git a/src/App.jsx b/src/App.jsx".data⟩
  gitDiffNames := ⟨true, []⟩
  fsys := emptyFs
  pkgJson := some pkgPlain
  npmCi := okCmd
  pwInstall := okCmd
  npmTest := okCmd
  firstResponse := respText "Found a real bug in App.jsx."
  retryResponse := respText "On a second look: the counter reset is off by one."

/-- The environment of claim C1: identical to the healthy run except that the
PR already carries a review whose body ends in the idempotency marker for the
current head commit `abc123`. -/
def envC1 : Env :=
  { baseEnv with
    existingReviewBodies :=
      [some (reviewBody "Earlier automated review text.".data "abc123".data)] }

/-- C1: the claim says that an invocation whose head commit already has a
marker-bearing review stops before any checkout, install, test run or
completion call, and posts nothing.  The live script never lists existing
reviews (there is no `listReviews` call anywhere in review-agent.mjs, unlike
the earlier revision's `alreadyReviewed` scan), so on an environment whose PR
already carries the marker for head `abc123` it still checks out, installs,
tests, calls the completion API and posts a second marker-bearing review:
the claimed invariant is violated by the code. -/
theorem c1_idempotency_not_enforced :
    ScriptB.alreadyReviewed envC1.existingReviewBodies (markerFor envC1.headSha) = true ∧
      runReviewAgent envC1 =
        ⟨gitCmds ++ [.npmCi, .npmTest], [],
          [reviewBody "Found a real bug in App.jsx.".data "abc123".data], 1, .posted⟩ := by
  decide

/-- A comment body whose only occurrence of the trigger phrase is inside a
fenced code block. -/
def c2Body : List Char := ("```" ++ "\n@review-agent: please review this PR\n" ++ "```").data

/-- The environment of claim C2: the healthy run, but the comment only quotes
the trigger inside a code fence. -/
def envC2 : Env := { baseEnv with commentBody := c2Body }

/-- C2: the claim says a trigger phrase appearing only inside a fenced code
block does not fire the gate.  The live script's fence-stripping regex is
written `/```[\\s\\S]*?```/g`: inside a regex literal `\\s` is a literal
backslash followed by `s`, so the class matches only `\`, `s`, `S` and the
fence around the trigger is not stripped; `matchesTrigger` returns `true`
and the run proceeds all the way to posting a review.  The earlier revision's
`matchesTrigger` (single-backslash regexes, embedded as
`ScriptA.matchesTrigger`) returns `false` on the same body, as the claim
demands. -/
theorem c2_fenced_trigger_fires :
    ReviewAgent.matchesTrigger c2Body = true ∧ ScriptA.matchesTrigger c2Body = false ∧
      (runReviewAgent envC2).outcome = .posted := by
  decide

/-- The environment of claim C3: the healthy run, except `npm ci` exits
non-zero. -/
def envC3 : Env := { baseEnv with npmCi := badCmd }

/-- C3: the claim says a failing install/provision/test step leads to a
posted comment holding the truncated captured output, a failure exit, and no
completion call.  In review-agent.mjs the catch block (line 122) evaluates
`truncate(error.output || testOutput || String(error), MAX_TEST_CHARS)`, but
neither `truncate` nor `MAX_TEST_CHARS` is defined anywhere in that module,
so the catch block itself raises a `ReferenceError`: the process dies with a
nonzero exit and no comment is ever posted.  The completion API is indeed
never called. -/
theorem c3_failing_install_crashes_catch :
    runReviewAgent envC3 = ⟨gitCmds ++ [.npmCi], [], [], 0, .jsErrorInCatch⟩ ∧
      Outcome.exitCode .jsErrorInCatch = 1 := by
  decide

/-- C7: a PR whose head repository differs from its base repository is
rejected before any git command: the trace holds exactly one comment (the
fork message), no commands, no review and no completion call, and the
outcome exits nonzero. -/
theorem c7_fork_rejected (e : Env) (gt ep ow rn : List Char) (n : Nat)
    (hgt : e.githubToken = some gt) (hev : e.eventPath = some ep)
    (hin : e.issueNumber = some n) (how : e.ownerLogin = some ow)
    (hrn : e.repoName = some rn) (htr : matchesTrigger e.commentBody = true)
    (hpr : e.prFound = true) (hne : e.headRepoFullName ≠ e.baseRepoFullName) :
    runReviewAgent e = ⟨[], [msgFork], [], 0, .forkRejected⟩ ∧
      Outcome.exitCode .forkRejected = 1 := by
  refine ⟨?_, rfl⟩
  simp only [runReviewAgent, hgt, hev, hin, how, hrn, htr, hpr]
  simp [hne]

/-- The environment of the C7 witness: a fork PR. -/
def envC7 : Env := { baseEnv with headRepoFullName := "forker/playwright-test".data }

/-- Witness for C7 at a concrete fork environment. -/
theorem c7_fork_rejected_witness :
    runReviewAgent envC7 = ⟨[], [msgFork], [], 0, .forkRejected⟩ ∧
      Outcome.exitCode .forkRejected = 1 :=
  c7_fork_rejected envC7 "ghtoken".data "/github/workflow/event.json".data
    "marcbey".data "playwright-test".data 7 rfl rfl rfl rfl rfl (by decide) rfl (by decide)

/-- C9: when `package.json` cannot be read or parsed in the checked-out head
commit, the run posts exactly the "package.json not found" comment and exits
nonzero, after the git phase but without `npm ci`, without the test command
and without any completion call. -/
theorem c9_missing_package_json (e : Env) (gt ep ow rn : List Char) (n : Nat)
    (hgt : e.githubToken = some gt) (hev : e.eventPath = some ep)
    (hin : e.issueNumber = some n) (how : e.ownerLogin = some ow)
    (hrn : e.repoName = some rn) (htr : matchesTrigger e.commentBody = true)
    (hpr : e.prFound = true) (hsame : e.headRepoFullName = e.baseRepoFullName)
    (h1 : e.gitInit.ok = true) (h2 : e.gitRemote.ok = true) (h3 : e.gitFetch.ok = true)
    (h4 : e.gitCheckout.ok = true) (h5 : e.gitDiff.ok = true) (h6 : e.gitDiffNames.ok = true)
    (hpkg : e.pkgJson = none) :
    runReviewAgent e = ⟨gitCmds, [msgNoPkg], [], 0, .noPkg⟩ ∧
      Outcome.exitCode .noPkg = 1 := by
  refine ⟨?_, rfl⟩
  simp only [runReviewAgent, hgt, hev, hin, how, hrn, htr, hpr, hsame]
  simp only [gitPhase, pkgPhase, h1, h2, h3, h4, h5, h6, hpkg]
  simp [gitCmds]

/-- The environment of the C9 witness: `package.json` unreadable. -/
def envC9 : Env := { baseEnv with pkgJson := none }

/-- Witness for C9 at a concrete environment with no parseable package.json. -/
theorem c9_missing_package_json_witness :
    runReviewAgent envC9 = ⟨gitCmds, [msgNoPkg], [], 0, .noPkg⟩ ∧
      Outcome.exitCode .noPkg = 1 :=
  c9_missing_package_json envC9 "ghtoken".data "/github/workflow/event.json".data
    "marcbey".data "playwright-test".data 7 rfl rfl rfl rfl rfl (by decide) rfl rfl
    rfl rfl rfl rfl rfl rfl rfl

/-- The review phase never alters the accumulated command list. -/
theorem reviewPhase_commands (e : Env) (cmds : List Cmd) :
    (reviewPhase e cmds).commands = cmds := by
  unfold reviewPhase
  cases e.openaiKey with
  | none => rfl
  | some k =>
    dsimp only
    split <;> rfl

/-- Any invocation that passes all guards, checks out cleanly, and finds a
valid test script reaches the test phase with the six git commands traced. -/
theorem run_reaches_testPhase (e : Env) (p : Pkg) (gt ep ow rn : List Char) (n : Nat)
    (hgt : e.githubToken = some gt) (hev : e.eventPath = some ep)
    (hin : e.issueNumber = some n) (how : e.ownerLogin = some ow)
    (hrn : e.repoName = some rn) (htr : matchesTrigger e.commentBody = true)
    (hpr : e.prFound = true) (hsame : e.headRepoFullName = e.baseRepoFullName)
    (h1 : e.gitInit.ok = true) (h2 : e.gitRemote.ok = true) (h3 : e.gitFetch.ok = true)
    (h4 : e.gitCheckout.ok = true) (h5 : e.gitDiff.ok = true) (h6 : e.gitDiffNames.ok = true)
    (hpkg : e.pkgJson = some p) (hts : noValidTestScript p = false) :
    runReviewAgent e = testPhase e p gitCmds := by
  simp only [runReviewAgent, hgt, hev, hin, how, hrn, htr, hpr, hsame]
  simp only [gitPhase, pkgPhase, h1, h2, h3, h4, h5, h6, hpkg, hts]
  simp [gitCmds]

/-- With the completion key configured, the review phase makes exactly one
retry call iff the first extraction matches `/no issues found/i`, the posted
body is built from the last extraction, and at most two completion calls
happen. -/
theorem reviewPhase_spec (e : Env) (cmds : List Cmd) (key : List Char)
    (hkey : e.openaiKey = some key) :
    (hasNoIssues (extractReviewText e.firstResponse) = true →
        (reviewPhase e cmds).completions = 2 ∧
          (reviewPhase e cmds).reviews =
            [reviewBody (extractReviewText e.retryResponse) e.headSha]) ∧
      (hasNoIssues (extractReviewText e.firstResponse) = false →
        (reviewPhase e cmds).completions = 1 ∧
          (reviewPhase e cmds).reviews =
            [reviewBody (extractReviewText e.firstResponse) e.headSha]) ∧
      (reviewPhase e cmds).completions ≤ 2 := by
  cases hni : hasNoIssues (extractReviewText e.firstResponse) <;>
    refine ⟨?_, ?_, ?_⟩ <;> simp [reviewPhase, hkey, hni]

/-- C10: on a run reaching the test step with `npm ci` succeeding (and the
browser provisioning succeeding where attempted), `npx playwright install`
is executed iff `usesPlaywright` holds of the parsed `package.json`, and when
executed it sits between `npm ci` and `npm test` in the command trace. -/
theorem c10_playwright_install_iff (e : Env) (p : Pkg) (gt ep ow rn : List Char) (n : Nat)
    (hgt : e.githubToken = some gt) (hev : e.eventPath = some ep)
    (hin : e.issueNumber = some n) (how : e.ownerLogin = some ow)
    (hrn : e.repoName = some rn) (htr : matchesTrigger e.commentBody = true)
    (hpr : e.prFound = true) (hsame : e.headRepoFullName = e.baseRepoFullName)
    (h1 : e.gitInit.ok = true) (h2 : e.gitRemote.ok = true) (h3 : e.gitFetch.ok = true)
    (h4 : e.gitCheckout.ok = true) (h5 : e.gitDiff.ok = true) (h6 : e.gitDiffNames.ok = true)
    (hpkg : e.pkgJson = some p) (hts : noValidTestScript p = false)
    (hci : e.npmCi.ok = true) (hpwi : e.pwInstall.ok = true) :
    (Cmd.playwrightInstall ∈ (runReviewAgent e).commands ↔ usesPlaywright p = true) ∧
      (usesPlaywright p = true →
        (runReviewAgent e).commands = gitCmds ++ [.npmCi, .playwrightInstall, .npmTest]) ∧
      (usesPlaywright p = false →
        (runReviewAgent e).commands = gitCmds ++ [.npmCi, .npmTest]) := by
  have hrun : runReviewAgent e = testPhase e p gitCmds :=
    run_reaches_testPhase e p gt ep ow rn n hgt hev hin how hrn htr hpr hsame
      h1 h2 h3 h4 h5 h6 hpkg hts
  rw [hrun]
  cases hup : usesPlaywright p with
  | false =>
    have hcmds : (testPhase e p gitCmds).commands = gitCmds ++ [.npmCi, .npmTest] := by
      cases hnt : e.npmTest.ok
      · simp [testPhase, hci, hup, hnt]
      · simp [testPhase, hci, hup, hnt, reviewPhase_commands]
    refine ⟨?_, ?_, ?_⟩
    · rw [hcmds]
      decide
    · intro h
      exact absurd h (by decide)
    · intro _
      exact hcmds
  | true =>
    have hcmds :
        (testPhase e p gitCmds).commands = gitCmds ++ [.npmCi, .playwrightInstall, .npmTest] := by
      cases hnt : e.npmTest.ok
      · simp [testPhase, hci, hup, hpwi, hnt]
      · simp [testPhase, hci, hup, hpwi, hnt, reviewPhase_commands]
    refine ⟨?_, ?_, ?_⟩
    · rw [hcmds]
      decide
    · intro _
      exact hcmds
    · intro h
      exact absurd h (by decide)

/-- The environment of the C10 witness: `@playwright/test` declared in
`devDependencies`. -/
def envC10 : Env := { baseEnv with pkgJson := some pkgPw }

/-- Witness for C10: with a playwright dependency present, the install
command is traced between `npm ci` and `npm test`. -/
theorem c10_playwright_install_iff_witness :
    Cmd.playwrightInstall ∈ (runReviewAgent envC10).commands ∧
      (runReviewAgent envC10).commands = gitCmds ++ [.npmCi, .playwrightInstall, .npmTest] := by
  have h := c10_playwright_install_iff envC10 pkgPw "ghtoken".data
    "/github/workflow/event.json".data "marcbey".data "playwright-test".data 7
    rfl rfl rfl rfl rfl (by decide) rfl rfl rfl rfl rfl rfl rfl rfl rfl (by decide) rfl rfl
  exact ⟨h.1.mpr (by decide), h.2.1 (by decide)⟩

/-- C6: on a run that reaches review generation, exactly one retry call is
made iff the first-pass extraction matches `/no issues found/i`
(case-insensitive substring test, line 159); the posted review body is built
from the retry's extraction in that case and from the first pass's otherwise;
and the invocation makes at most two completion calls. -/
theorem c6_retry_policy (e : Env) (p : Pkg) (gt ep ow rn key : List Char) (n : Nat)
    (hgt : e.githubToken = some gt) (hev : e.eventPath = some ep)
    (hin : e.issueNumber = some n) (how : e.ownerLogin = some ow)
    (hrn : e.repoName = some rn) (htr : matchesTrigger e.commentBody = true)
    (hpr : e.prFound = true) (hsame : e.headRepoFullName = e.baseRepoFullName)
    (h1 : e.gitInit.ok = true) (h2 : e.gitRemote.ok = true) (h3 : e.gitFetch.ok = true)
    (h4 : e.gitCheckout.ok = true) (h5 : e.gitDiff.ok = true) (h6 : e.gitDiffNames.ok = true)
    (hpkg : e.pkgJson = some p) (hts : noValidTestScript p = false)
    (hci : e.npmCi.ok = true) (hpwi : e.pwInstall.ok = true) (hnt : e.npmTest.ok = true)
    (hkey : e.openaiKey = some key) :
    (hasNoIssues (extractReviewText e.firstResponse) = true →
        (runReviewAgent e).completions = 2 ∧
          (runReviewAgent e).reviews =
            [reviewBody (extractReviewText e.retryResponse) e.headSha]) ∧
      (hasNoIssues (extractReviewText e.firstResponse) = false →
        (runReviewAgent e).completions = 1 ∧
          (runReviewAgent e).reviews =
            [reviewBody (extractReviewText e.firstResponse) e.headSha]) ∧
      (runReviewAgent e).completions ≤ 2 := by
  have hrun : runReviewAgent e = testPhase e p gitCmds :=
    run_reaches_testPhase e p gt ep ow rn n hgt hev hin how hrn htr hpr hsame
      h1 h2 h3 h4 h5 h6 hpkg hts
  cases hup : usesPlaywright p with
  | false =>
    have h2 : testPhase e p gitCmds = reviewPhase e (gitCmds ++ [.npmCi, .npmTest]) := by
      simp [testPhase, hci, hup, hnt]
    rw [hrun, h2]
    exact reviewPhase_spec e _ key hkey
  | true =>
    have h2 : testPhase e p gitCmds =
        reviewPhase e (gitCmds ++ [.npmCi, .playwrightInstall, .npmTest]) := by
      simp [testPhase, hci, hup, hpwi, hnt]
    rw [hrun, h2]
    exact reviewPhase_spec e _ key hkey

/-- The environment of the C6 witness: the first pass comes back clean, the
retry produces a finding. -/
def envC6 : Env :=
  { baseEnv with
    firstResponse := respText "No issues found. Tests passed."
    retryResponse := respText "On closer inspection the fork check is inverted." }

/-- Witness for C6 at a concrete clean-first-pass environment: two completion
calls, and the posted body comes from the retry extraction. -/
theorem c6_retry_policy_witness :
    (runReviewAgent envC6).completions = 2 ∧
      (runReviewAgent envC6).reviews =
        [reviewBody (extractReviewText envC6.retryResponse) envC6.headSha] :=
  (c6_retry_policy envC6 pkgPlain "ghtoken".data "/github/workflow/event.json".data
    "marcbey".data "playwright-test".data "sk-key".data 7
    rfl rfl rfl rfl rfl (by decide) rfl rfl rfl rfl rfl rfl rfl rfl rfl rfl
    rfl rfl rfl rfl).1 (by decide)

/-- A string starts with itself (followed by anything). -/
theorem startsWithL_append (sub y : List Char) : startsWithL (sub ++ y) sub = true := by
  induction sub with
  | nil => cases y <;> rfl
  | cons c cs ih => simp [startsWithL, ih]

/-- A match at the head is an occurrence. -/
theorem jsIncludes_of_startsWithL (s sub : List Char) (h : startsWithL s sub = true) :
    jsIncludes s sub = true := by
  cases s with
  | nil =>
    cases sub with
    | nil => rfl
    | cons b bs => simp [startsWithL] at h
  | cons c rest => simp [jsIncludes, h]

/-- Any explicitly embedded occurrence is found by `jsIncludes`. -/
theorem jsIncludes_append_self (x sub y : List Char) :
    jsIncludes (x ++ (sub ++ y)) sub = true := by
  induction x with
  | nil => exact jsIncludes_of_startsWithL _ _ (startsWithL_append sub y)
  | cons c cs ih => simp [jsIncludes, ih]

/-- C4: for every input and budget, `truncate` (of the first earlier
revision, part_000 lines 160-164 — the one whose annotation the spec
describes) returns the input unchanged when it fits the budget, and
otherwise returns exactly the first `N` characters followed by the
annotation, which states the omitted count in decimal. -/
theorem c4_truncate (v : List Char) (N : Nat) :
    (v.length ≤ N → ScriptA.truncate v N = v) ∧
      (N < v.length →
        (ScriptA.truncate v N).take N = v.take N ∧
          ScriptA.truncate v N = v.take N ++ ScriptA.truncNote (v.length - N) ∧
          jsIncludes (ScriptA.truncNote (v.length - N)) (Nat.repr (v.length - N)).data = true) := by
  constructor
  · intro hle
    cases v with
    | nil => rfl
    | cons c cs =>
      unfold ScriptA.truncate
      rw [if_neg (by simp : ¬((c :: cs).isEmpty = true)), if_pos hle]
  · intro hlt
    obtain ⟨c, cs, rfl⟩ : ∃ c cs, v = c :: cs := by
      cases v with
      | nil => simp at hlt
      | cons c cs => exact ⟨c, cs, rfl⟩
    have hnle : ¬ (c :: cs).length ≤ N := Nat.not_le.mpr hlt
    have htr : ScriptA.truncate (c :: cs) N =
        (c :: cs).take N ++ ScriptA.truncNote ((c :: cs).length - N) := by
      unfold ScriptA.truncate
      rw [if_neg (by simp : ¬((c :: cs).isEmpty = true)), if_neg hnle]
    refine ⟨?_, htr, ?_⟩
    · rw [htr]
      exact List.take_left' (by rw [List.length_take]; exact Nat.min_eq_left (Nat.le_of_lt hlt))
    · have hshape : ScriptA.truncNote ((c :: cs).length - N) =
          ('\n' :: Char.ofNat 226 :: Char.ofNat 8364 :: Char.ofNat 166 :: " [truncated ".data)
            ++ ((Nat.repr ((c :: cs).length - N)).data ++ " chars]".data) := by
        simp [ScriptA.truncNote]
      rw [hshape]
      exact jsIncludes_append_self _ _ _

/-- Witness for C4: a six-character input at budgets 10 (unchanged) and 4
(cut to four characters plus the counting annotation). -/
theorem c4_truncate_witness :
    ScriptA.truncate "abcdef".data 10 = "abcdef".data ∧
      ScriptA.truncate "abcdef".data 4 =
        "abcdef".data.take 4 ++ ScriptA.truncNote ("abcdef".data.length - 4) :=
  ⟨(c4_truncate "abcdef".data 10).1 (by decide),
    ((c4_truncate "abcdef".data 4).2 (by decide)).2.1⟩

/-- What one entry of the changed-file list contributes to the context,
read off review-agent.mjs's `readFiles` loop: `none` (a silent skip) for an
empty name, a throwing `stat`, a non-regular file or a throwing read, and
otherwise the section holding the file's full contents. -/
def fileEntry (fs : Fsys) (f : List Char) : Option (List Char) :=
  if f.isEmpty then none
  else
    match fs.stat f with
    | none => none
    | some st =>
      if !st.isFile then none
      else
        match fs.read f with
        | none => none
        | some content => some (fileSection f content)

/-- The `readFiles` accumulator loop is the `filterMap` of `fileEntry`. -/
theorem readFilesLoop_eq (fs : Fsys) (files : List (List Char)) :
    ∀ parts, readFilesLoop fs parts files = parts ++ files.filterMap (fileEntry fs) := by
  induction files with
  | nil => intro parts; simp [readFilesLoop]
  | cons f rest ih =>
    intro parts
    cases hf : f.isEmpty
    · cases hst : fs.stat f with
      | none => simp [readFilesLoop, fileEntry, hf, hst, ih]
      | some st =>
        cases hisf : st.isFile
        · simp [readFilesLoop, fileEntry, hf, hst, hisf, ih]
        · cases hrd : fs.read f with
          | none => simp [readFilesLoop, fileEntry, hf, hst, hisf, hrd, ih]
          | some content => simp [readFilesLoop, fileEntry, hf, hst, hisf, hrd, ih]
    · simp [readFilesLoop, fileEntry, hf, ih]

/-- C8 (amended): `readFiles` of review-agent.mjs joins, newline-separated
and trimmed, one section per changed file, where a section holds the
readable regular file's contents in full (`fileSection` — the live script
applies no per-file truncation) and every empty, unreadable or non-regular
entry contributes nothing and aborts nothing. -/
theorem c8_readFiles_full_contents (files : List (List Char)) (fs : Fsys) :
    readFiles files fs = trimList (joinNl (files.filterMap (fileEntry fs))) := by
  unfold readFiles
  rw [readFilesLoop_eq]
  rfl

/-- A 4001-character file body, one character over the only per-file budget
in the repository (`MAX_FILE_CHARS = 4000` of the earlier revision). -/
def bigContent : List Char := List.replicate 4001 'x'

/-- A checkout whose only readable file is `a.js` with `bigContent`. -/
def cFs : Fsys :=
  ⟨fun f => if f = "a.js".data then some ⟨true⟩ else none,
   fun f => if f = "a.js".data then some bigContent else none⟩

/-- `dropWhile` keeps a list whose first character fails the predicate. -/
theorem dropWhile_eq_self_of_head (p : Char → Bool) (l : List Char) (c : Char)
    (hc : l.head? = some c) (hp : p c = false) : l.dropWhile p = l := by
  cases l with
  | nil => simp at hc
  | cons x xs =>
    obtain rfl : x = c := by simpa using hc
    simp [List.dropWhile_cons, hp]

/-- Counterexample to C8 as stated: on a changed file one character over the
repository's per-file budget, the live `readFiles` returns the section with
all 4001 characters, and truncation at that budget would have produced a
different string — the claimed per-file truncation does not happen in
review-agent.mjs. -/
theorem c8_readFiles_counterexample :
    readFiles ["a.js".data] cFs = "--- a.js ---\n".data ++ bigContent ∧
      ScriptA.truncate bigContent ScriptA.maxFileChars ≠ bigContent := by
  have hlen : bigContent.length = 4001 := by rw [bigContent, List.length_replicate]
  constructor
  · have hloop : readFilesLoop cFs [] ["a.js".data] = [fileSection "a.js".data bigContent] := by
      simp [readFilesLoop, cFs]
    have hsec : fileSection "a.js".data bigContent =
        '\n' :: ("--- a.js ---\n".data ++ bigContent) := by
      unfold fileSection
      exact congrArg (fun l => '\n' :: l) (congrArg (· ++ bigContent) (by decide))
    have hrevhead : ("--- a.js ---\n".data ++ bigContent).reverse.head? = some 'x' := by
      rw [List.reverse_append]
      have : bigContent.reverse = 'x' :: List.replicate 4000 'x' := by
        rw [bigContent, List.reverse_replicate, List.replicate_succ]
      rw [this]
      rfl
    unfold readFiles
    rw [hloop]
    have hjoin : joinNl [fileSection "a.js".data bigContent] =
        fileSection "a.js".data bigContent := rfl
    rw [hjoin, hsec]
    unfold trimList
    rw [List.dropWhile_cons]
    have hnl : jsWsB '\n' = true := rfl
    rw [if_pos hnl]
    have hdropL : ("--- a.js ---\n".data ++ bigContent).dropWhile jsWsB =
        "--- a.js ---\n".data ++ bigContent := by
      apply dropWhile_eq_self_of_head _ _ '-'
      · rfl
      · rfl
    rw [hdropL]
    rw [dropWhile_eq_self_of_head _ _ 'x' hrevhead rfl]
    exact List.reverse_reverse _
  · intro h
    have h1 : ScriptA.truncate bigContent ScriptA.maxFileChars =
        bigContent.take 4000 ++ ScriptA.truncNote 1 := by
      have hbe : bigContent.isEmpty = false := by
        cases hbc : bigContent with
        | nil => rw [hbc] at hlen; simp at hlen
        | cons a l => rfl
      unfold ScriptA.truncate ScriptA.maxFileChars
      rw [if_neg (by rw [hbe]; simp : ¬(bigContent.isEmpty = true)),
        if_neg (by rw [hlen]; omega : ¬(bigContent.length ≤ 4000))]
      rw [hlen]
    rw [h1] at h
    have hl := congrArg List.length h
    rw [List.length_append, List.length_take, hlen] at hl
    have hnote : (ScriptA.truncNote 1).length = 24 := by decide
    rw [hnote] at hl
    omega

/-- A list starting with the three-backtick fence decomposes as such. -/
theorem startsWithL_ticks_struct (s : List Char) (h : startsWithL s ticks = true) :
    ∃ s3, s = btick :: btick :: btick :: s3 := by
  cases s with
  | nil => simp [startsWithL, ticks] at h
  | cons a s1 =>
    cases s1 with
    | nil => simp [startsWithL, ticks] at h
    | cons b s2 =>
      cases s2 with
      | nil => simp [startsWithL, ticks] at h
      | cons c s3 =>
        simp only [startsWithL, ticks, Bool.and_eq_true, beq_iff_eq] at h
        obtain ⟨rfl, rfl, rfl, -⟩ := h
        exact ⟨s3, rfl⟩

/-- A list not starting with a backtick does not start with the fence. -/
theorem startsWithL_ticks_false (c : Char) (xs : List Char) (hc : c ≠ btick) :
    startsWithL (c :: xs) ticks = false := by
  simp [startsWithL, ticks, beq_iff_eq, hc]

/-- A successful (buggy-class) fence close consumed only class characters up
to the closing fence. -/
theorem fenceCloseB_struct : ∀ l r : List Char, fenceCloseB l = some r →
    ∃ w, l = w ++ (ticks ++ r) ∧ ∀ c ∈ w, allowedBuggy c = true := by
  intro l
  induction l with
  | nil => intro r h; simp [fenceCloseB] at h
  | cons c rest ih =>
    intro r h
    simp only [fenceCloseB] at h
    by_cases hst : startsWithL (c :: rest) ticks = true
    · rw [if_pos hst] at h
      obtain ⟨s3, hs3⟩ := startsWithL_ticks_struct _ hst
      have hdrop : (c :: rest).drop 3 = s3 := by rw [hs3]; rfl
      rw [hdrop] at h
      obtain rfl : s3 = r := Option.some.inj h
      refine ⟨[], ?_, ?_⟩
      · simpa [ticks] using hs3
      · intro d hd
        simp at hd
    · rw [if_neg hst] at h
      by_cases hal : allowedBuggy c = true
      · rw [if_pos hal] at h
        obtain ⟨w, hw, hmem⟩ := ih r h
        refine ⟨c :: w, ?_, ?_⟩
        · rw [List.cons_append, ← hw]
        · intro d hd
          rcases List.mem_cons.mp hd with rfl | hd'
          · exact hal
          · exact hmem d hd'
      · rw [if_neg hal] at h
        exact absurd h (by simp)

/-- The (buggy) fence-stripping pass copies any backtick-free prefix
verbatim. -/
theorem stripFencesF_no_btick :
    ∀ (fuel : Nat) (u v : List Char), (∀ c ∈ u, c ≠ btick) → (u ++ v).length ≤ fuel →
      ∃ w, stripFencesF fenceCloseB fuel (u ++ v) = u ++ w := by
  intro fuel
  induction fuel with
  | zero =>
    intro u v hu hlen
    cases u with
    | nil => exact ⟨v, rfl⟩
    | cons c u' => simp at hlen
  | succ g ih =>
    intro u v hu hlen
    cases u with
    | nil => exact ⟨stripFencesF fenceCloseB (g + 1) v, rfl⟩
    | cons c u' =>
      have hc : c ≠ btick := hu c (List.mem_cons_self c u')
      have hst := startsWithL_ticks_false c (u' ++ v) hc
      simp only [List.cons_append, stripFencesF, List.append_eq]
      rw [if_neg (by rw [hst]; simp)]
      obtain ⟨w, hw⟩ := ih u' v (fun d hd => hu d (List.mem_cons_of_mem c hd))
        (by simp at hlen ⊢; omega)
      exact ⟨w, by rw [hw]⟩

/-- The (buggy) fence-stripping pass preserves any occurrence of a substring
`t` that holds no backtick and whose first character is neither a backtick
nor in the (buggy) class: no fence can begin inside `t`, and a fence match
begun before `t` can never extend into it, since every consumed character
lies in the class or is a backtick. -/
theorem stripFencesF_pres (tt post : List Char) (hd : Char)
    (hbt : ∀ c ∈ hd :: tt, c ≠ btick) (hdS : allowedBuggy hd = false)
    (hdB : hd ≠ btick) :
    ∀ (fuel : Nat) (pre : List Char), (pre ++ (hd :: (tt ++ post))).length ≤ fuel →
      ∃ a b, stripFencesF fenceCloseB fuel (pre ++ (hd :: (tt ++ post))) =
        a ++ (hd :: (tt ++ b)) := by
  intro fuel
  induction fuel with
  | zero =>
    intro pre hlen
    exfalso
    simp [List.length_append] at hlen
  | succ g ih =>
    intro pre hlen
    cases pre with
    | nil =>
      obtain ⟨w, hw⟩ :=
        stripFencesF_no_btick (g + 1) (hd :: tt) post hbt (by simpa using hlen)
      exact ⟨[], w, by simpa using hw⟩
    | cons p pre' =>
      by_cases hst : startsWithL (p :: (pre' ++ (hd :: (tt ++ post)))) ticks = true
      · obtain ⟨s3, hs3⟩ := startsWithL_ticks_struct _ hst
        injection hs3 with hp h2
        subst hp
        cases pre' with
        | nil =>
          exfalso
          injection (show hd :: (tt ++ post) = btick :: btick :: s3 from h2) with hhd2 _
          exact hdB hhd2
        | cons q pre₂ =>
          injection h2 with hq h3
          subst hq
          cases pre₂ with
          | nil =>
            exfalso
            injection (show hd :: (tt ++ post) = btick :: s3 from h3) with hhd2 _
            exact hdB hhd2
          | cons q2 pre₃ =>
            injection h3 with hq2 h4
            subst hq2
            have hst2 : startsWithL
                (btick :: btick :: btick :: (pre₃ ++ (hd :: (tt ++ post)))) ticks = true := by
              simp [startsWithL, ticks]
            simp only [List.cons_append, stripFencesF, List.append_eq]
            rw [if_pos hst2]
            have hdrop :
                List.drop 3 (btick :: btick :: btick :: (pre₃ ++ (hd :: (tt ++ post)))) =
                  pre₃ ++ (hd :: (tt ++ post)) := rfl
            rw [hdrop]
            cases hfc : fenceCloseB (pre₃ ++ (hd :: (tt ++ post))) with
            | none =>
              obtain ⟨a, b, hab⟩ := ih (btick :: btick :: pre₃)
                (by simp [List.length_append] at hlen ⊢; omega)
              simp only [List.cons_append] at hab
              exact ⟨btick :: a, b, by simp [hab]⟩
            | some r =>
              obtain ⟨w, hw, hwm⟩ := fenceCloseB_struct _ r hfc
              have hw2 : pre₃ ++ (hd :: (tt ++ post)) = (w ++ ticks) ++ r := by
                rw [hw, List.append_assoc]
              have hlw2 := congrArg List.length hw2
              simp only [List.length_append, List.length_cons, ticks] at hlw2
              rcases List.append_eq_append_iff.mp hw2 with ⟨a', hW, hX⟩ | ⟨c', hpre₃, hr⟩
              · cases a' with
                | nil =>
                  simp only [List.nil_append] at hX
                  obtain ⟨a, b, hab⟩ := ih []
                    (by simp [List.length_append] at hlen ⊢; omega)
                  simp only [List.nil_append] at hab
                  refine ⟨' ' :: a, b, ?_⟩
                  rw [← hX]
                  simp [hab]
                | cons c' cs' =>
                  exfalso
                  have hc' : hd = c' := by
                    simp only [List.cons_append] at hX
                    injection hX with h5 _
                  have hmem : c' ∈ w ++ ticks := by
                    rw [hW]
                    exact List.mem_append_right _ (List.mem_cons_self c' cs')
                  rcases List.mem_append.mp hmem with hcw | hct
                  · rw [← hc'] at hcw
                    rw [hwm hd hcw] at hdS
                    exact absurd hdS (by decide)
                  · rw [← hc'] at hct
                    simp [ticks] at hct
                    exact hdB hct
              · obtain ⟨a, b, hab⟩ := ih c'
                  (by
                    have hlp := congrArg List.length hpre₃
                    simp only [List.length_append, List.length_cons, ticks] at hlp
                    simp [List.length_append] at hlen ⊢
                    omega)
                refine ⟨' ' :: a, b, ?_⟩
                rw [hr]
                simp [hab]
      · simp only [List.cons_append, stripFencesF, List.append_eq]
        rw [if_neg hst]
        obtain ⟨a, b, hab⟩ := ih pre' (by simp [List.length_append] at hlen ⊢; omega)
        exact ⟨p :: a, b, by simp [hab]⟩

/-- The backslash-`s` collapsing pass copies any backslash-free prefix
verbatim. -/
theorem collapseBSF_no_bsl :
    ∀ (fuel : Nat) (u v : List Char), (∀ c ∈ u, c ≠ '\\') → (u ++ v).length ≤ fuel →
      ∃ w, collapseBSF fuel (u ++ v) = u ++ w := by
  intro fuel
  induction fuel with
  | zero =>
    intro u v hu hlen
    cases u with
    | nil => exact ⟨v, rfl⟩
    | cons c u' => simp at hlen
  | succ g ih =>
    intro u v hu hlen
    cases u with
    | nil => exact ⟨collapseBSF (g + 1) v, rfl⟩
    | cons c u' =>
      have hc : c ≠ '\\' := hu c (List.mem_cons_self c u')
      simp only [List.cons_append, collapseBSF, List.append_eq]
      rw [if_neg (by simp [Bool.and_eq_true, beq_iff_eq, hc])]
      obtain ⟨w, hw⟩ := ih u' v (fun d hd => hu d (List.mem_cons_of_mem c hd))
        (by simp at hlen ⊢; omega)
      exact ⟨w, by simp [hw]⟩

/-- The backslash-`s` collapsing pass preserves any occurrence of a substring
holding no backslash and starting with a character that is neither a
backslash nor `s`: no match can begin inside it, and the greedy `s`-run of a
match begun earlier stops at its first character. -/
theorem collapseBSF_pres (tt post : List Char) (hd : Char)
    (hbs : ∀ c ∈ hd :: tt, c ≠ '\\') (hd2 : hd ≠ 's') :
    ∀ (fuel : Nat) (pre : List Char), (pre ++ (hd :: (tt ++ post))).length ≤ fuel →
      ∃ a b, collapseBSF fuel (pre ++ (hd :: (tt ++ post))) = a ++ (hd :: (tt ++ b)) := by
  intro fuel
  induction fuel with
  | zero =>
    intro pre hlen
    exfalso
    simp [List.length_append] at hlen
  | succ g ih =>
    intro pre hlen
    cases pre with
    | nil =>
      obtain ⟨w, hw⟩ := collapseBSF_no_bsl (g + 1) (hd :: tt) post hbs (by simpa using hlen)
      exact ⟨[], w, by simpa using hw⟩
    | cons p pre' =>
      by_cases hcond :
        (p == '\\' && (pre' ++ (hd :: (tt ++ post))).head? == some 's') = true
      · simp only [List.cons_append, collapseBSF, List.append_eq]
        rw [if_pos hcond]
        by_cases hemp : (pre'.dropWhile (fun d => d == 's')).isEmpty = true
        · have harg : (pre' ++ (hd :: (tt ++ post))).dropWhile (fun d => d == 's') =
              hd :: (tt ++ post) := by
            rw [List.dropWhile_append, if_pos hemp, List.dropWhile_cons,
              if_neg (by simp [hd2])]
          rw [harg]
          obtain ⟨a, b, hab⟩ := ih [] (by simp [List.length_append] at hlen ⊢; omega)
          simp only [List.nil_append] at hab
          exact ⟨' ' :: a, b, by simp [hab]⟩
        · have harg : (pre' ++ (hd :: (tt ++ post))).dropWhile (fun d => d == 's') =
              pre'.dropWhile (fun d => d == 's') ++ (hd :: (tt ++ post)) := by
            rw [List.dropWhile_append, if_neg hemp]
          rw [harg]
          have h1 : (pre'.dropWhile (fun d => d == 's')).length ≤ pre'.length :=
            (List.dropWhile_sublist _).length_le
          obtain ⟨a, b, hab⟩ := ih (pre'.dropWhile (fun d => d == 's'))
            (by simp [List.length_append] at hlen ⊢; omega)
          exact ⟨' ' :: a, b, by simp [hab]⟩
      · simp only [List.cons_append, collapseBSF, List.append_eq]
        rw [if_neg hcond]
        obtain ⟨a, b, hab⟩ := ih pre' (by simp [List.length_append] at hlen ⊢; omega)
        exact ⟨p :: a, b, by simp [hab]⟩

/-- `dropWhile` keeps any suffix that begins with a character failing the
predicate, cutting only within the prefix before it. -/
theorem dropWhile_append_pres (p : Char → Bool) (a : List Char) (hd : Char)
    (rest : List Char) (hp : p hd = false) :
    ∃ x, (a ++ (hd :: rest)).dropWhile p = x ++ (hd :: rest) := by
  rw [List.dropWhile_append]
  by_cases hemp : (a.dropWhile p).isEmpty = true
  · rw [if_pos hemp, List.dropWhile_cons, if_neg (by simp [hp])]
    exact ⟨[], rfl⟩
  · rw [if_neg hemp]
    exact ⟨a.dropWhile p, rfl⟩

/-- `trim` preserves any occurrence whose first and last characters are not
whitespace: it only removes characters strictly before or strictly after it. -/
theorem trimList_pres (tt : List Char) (hd lc : Char)
    (hlc : (hd :: tt).getLast? = some lc)
    (hhw : jsWsB hd = false) (hlw : jsWsB lc = false) (a b : List Char) :
    ∃ x y, trimList (a ++ (hd :: (tt ++ b))) = x ++ (hd :: (tt ++ y)) := by
  obtain ⟨x1, hx1⟩ := dropWhile_append_pres jsWsB a hd (tt ++ b) hhw
  obtain ⟨q, hq⟩ : ∃ q, (hd :: tt).reverse = lc :: q := by
    cases hrev : (hd :: tt).reverse with
    | nil => simp at hrev
    | cons z zs =>
      have h := List.head?_reverse (hd :: tt)
      rw [hrev, hlc] at h
      obtain rfl : z = lc := by simpa using h
      exact ⟨zs, rfl⟩
  have hrev2 : (x1 ++ (hd :: (tt ++ b))).reverse = b.reverse ++ (lc :: (q ++ x1.reverse)) := by
    have hsplit : x1 ++ (hd :: (tt ++ b)) = (x1 ++ (hd :: tt)) ++ b := by
      simp [List.append_assoc]
    rw [hsplit, List.reverse_append, List.reverse_append, hq]
    simp [List.append_assoc]
  obtain ⟨x2, hx2⟩ := dropWhile_append_pres jsWsB b.reverse lc (q ++ x1.reverse) hlw
  refine ⟨x1, x2.reverse, ?_⟩
  unfold trimList
  rw [hx1, hrev2, hx2]
  have hlcq : lc :: (q ++ x1.reverse) = (lc :: q) ++ x1.reverse := rfl
  rw [hlcq, List.reverse_append, List.reverse_append, List.reverse_reverse, ← hq,
    List.reverse_reverse]
  simp [List.append_assoc]

/-- Whitespace characters are fixed points of `Char.toLower`. -/
theorem jsWsB_toLower_fix (c : Char) (hw : jsWsB c = true) : Char.toLower c = c := by
  simp only [jsWsB, Bool.or_eq_true, beq_iff_eq] at hw
  rcases hw with ((((rfl | rfl) | rfl) | rfl) | rfl) | rfl <;> decide

/-- The review phase never reports the trigger-absent outcome. -/
theorem reviewPhase_ne_noTrigger (e : Env) (cmds : List Cmd) :
    (reviewPhase e cmds).outcome ≠ Outcome.noTrigger := by
  unfold reviewPhase
  cases e.openaiKey
  · simp
  · dsimp only
    split <;> simp

/-- The test phase never reports the trigger-absent outcome. -/
theorem testPhase_ne_noTrigger (e : Env) (p : Pkg) (cmds : List Cmd) :
    (testPhase e p cmds).outcome ≠ Outcome.noTrigger := by
  unfold testPhase
  split_ifs <;> first
    | exact reviewPhase_ne_noTrigger e _
    | simp

/-- The package phase never reports the trigger-absent outcome. -/
theorem pkgPhase_ne_noTrigger (e : Env) (cmds : List Cmd) :
    (pkgPhase e cmds).outcome ≠ Outcome.noTrigger := by
  unfold pkgPhase
  cases e.pkgJson
  · simp
  · dsimp only
    split
    · simp
    · exact testPhase_ne_noTrigger e _ _

/-- The git phase never reports the trigger-absent outcome. -/
theorem gitPhase_ne_noTrigger (e : Env) :
    (gitPhase e).outcome ≠ Outcome.noTrigger := by
  unfold gitPhase
  split_ifs <;> first
    | exact pkgPhase_ne_noTrigger e _
    | simp

/-- With the trigger gate passing, the run never ends in the trigger-absent
outcome: the review flow has started. -/
theorem runReviewAgent_ne_noTrigger (e : Env) (htr : matchesTrigger e.commentBody = true) :
    (runReviewAgent e).outcome ≠ Outcome.noTrigger := by
  unfold runReviewAgent
  cases e.githubToken
  · simp
  · cases e.eventPath
    · simp
    · dsimp only
      by_cases h1 : (e.issueNumber.isNone || e.ownerLogin.isNone || e.repoName.isNone) = true
      · rw [if_pos h1]
        simp
      · rw [if_neg h1, if_neg (by simp [htr])]
        by_cases h2 : (!e.prFound) = true
        · rw [if_pos h2]
          simp
        · rw [if_neg h2]
          by_cases h3 : e.headRepoFullName ≠ e.baseRepoFullName
          · rw [if_pos h3]
            simp
          · rw [if_neg h3]
            exact gitPhase_ne_noTrigger e

/-- C5: any comment body containing a letter-case variant of the trigger
phrase — with arbitrary surrounding text, hence in particular arbitrary
surrounding whitespace and regardless of fenced blocks elsewhere in the
body — fires the live trigger gate, and the run then never exits at the
trigger-absent outcome.  The hypothesis states that the occurrence `t`
lowercases to the lowercased trigger constant. -/
theorem c5_trigger_fires (pre t post : List Char)
    (hcase : t.map Char.toLower = ReviewAgent.triggerChars.map Char.toLower) :
    ReviewAgent.matchesTrigger (pre ++ (t ++ post)) = true ∧
      ∀ e : Env, e.commentBody = pre ++ (t ++ post) →
        (runReviewAgent e).outcome ≠ Outcome.noTrigger := by
  have hlowt : ReviewAgent.triggerChars.map Char.toLower =
      "@review-agent: please review this pr".data := by decide
  obtain ⟨hd, tt, rfl⟩ : ∃ hd tt, t = hd :: tt := by
    cases t with
    | nil =>
      rw [hlowt] at hcase
      exact absurd hcase (by decide)
    | cons x xs => exact ⟨x, xs, rfl⟩
  have hx : Char.toLower hd = '@' := by
    have h := congrArg List.head? hcase
    rw [hlowt] at h
    simpa using h
  have hgl : ((hd :: tt).map Char.toLower).getLast? = some 'r' := by
    rw [hcase, hlowt]
    decide
  rw [List.getLast?_map] at hgl
  obtain ⟨lc, hlc, hlcr⟩ : ∃ lc, (hd :: tt).getLast? = some lc ∧ Char.toLower lc = 'r' := by
    cases h : (hd :: tt).getLast? with
    | none => rw [h] at hgl; simp at hgl
    | some z =>
      rw [h] at hgl
      exact ⟨z, rfl, by simpa using hgl⟩
  have hdB : hd ≠ btick := fun hh => by rw [hh] at hx; exact absurd hx (by decide)
  have hd2 : hd ≠ 's' := fun hh => by rw [hh] at hx; exact absurd hx (by decide)
  have hdS : allowedBuggy hd = false := by
    cases hab : allowedBuggy hd
    · rfl
    · exfalso
      simp only [allowedBuggy, Bool.or_eq_true, beq_iff_eq] at hab
      rcases hab with (rfl | rfl) | rfl <;> exact absurd hx (by decide)
  have hdw : jsWsB hd = false := by
    cases hjw : jsWsB hd
    · rfl
    · exfalso
      have hfix := jsWsB_toLower_fix hd hjw
      rw [hfix] at hx
      rw [hx] at hjw
      exact absurd hjw (by decide)
  have hlw : jsWsB lc = false := by
    cases hjw : jsWsB lc
    · rfl
    · exfalso
      have hfix := jsWsB_toLower_fix lc hjw
      rw [hfix] at hlcr
      rw [hlcr] at hjw
      exact absurd hjw (by decide)
  have hbt : ∀ c ∈ hd :: tt, c ≠ btick := by
    intro c hc heq
    have hmm : Char.toLower c ∈ (hd :: tt).map Char.toLower := List.mem_map_of_mem _ hc
    rw [hcase, hlowt, heq] at hmm
    exact absurd hmm (by decide)
  have hbs : ∀ c ∈ hd :: tt, c ≠ '\\' := by
    intro c hc heq
    have hmm : Char.toLower c ∈ (hd :: tt).map Char.toLower := List.mem_map_of_mem _ hc
    rw [hcase, hlowt, heq] at hmm
    exact absurd hmm (by decide)
  have hfire : ReviewAgent.matchesTrigger (pre ++ ((hd :: tt) ++ post)) = true := by
    have hshape : pre ++ ((hd :: tt) ++ post) = pre ++ (hd :: (tt ++ post)) := rfl
    rw [hshape]
    unfold ReviewAgent.matchesTrigger
    rw [if_neg (show ¬((pre ++ (hd :: (tt ++ post))).isEmpty = true) by cases pre <;> simp)]
    unfold stripFences
    obtain ⟨a1, b1, h1⟩ := stripFencesF_pres tt post hd hbt hdS hdB
      ((pre ++ (hd :: (tt ++ post))).length + 1) pre (Nat.le_succ _)
    rw [h1]
    unfold collapseBS
    obtain ⟨a2, b2, h2⟩ := collapseBSF_pres tt b1 hd hbs hd2
      ((a1 ++ (hd :: (tt ++ b1))).length + 1) a1 (Nat.le_succ _)
    rw [h2]
    obtain ⟨x, y, h3⟩ := trimList_pres tt hd lc hlc hdw hlw a2 b2
    rw [h3]
    have hmap : lowerL (x ++ (hd :: (tt ++ y))) =
        lowerL x ++ (lowerL ReviewAgent.triggerChars ++ lowerL y) := by
      show (x ++ (hd :: (tt ++ y))).map Char.toLower = _
      have hsh : hd :: (tt ++ y) = (hd :: tt) ++ y := rfl
      rw [hsh, List.map_append, List.map_append, hcase]
      rfl
    rw [hmap]
    exact jsIncludes_append_self _ _ _
  refine ⟨hfire, ?_⟩
  intro e he
  apply runReviewAgent_ne_noTrigger
  rw [he]
  exact hfire

/-- Witness for C5: an upper-cased trigger variant with surrounding text, a
doubled space, and a fenced block elsewhere in the body still fires the
gate. -/
theorem c5_trigger_fires_witness :
    ReviewAgent.matchesTrigger
      ("hey  ".data ++
        ("@Review-Agent: PLEASE review this PR".data ++ "  thanks ```sS``` ".data)) = true :=
  (c5_trigger_fires "hey  ".data "@Review-Agent: PLEASE review this PR".data
    "  thanks ```sS``` ".data (by decide)).1

